import Mathlib

/-!
# Verification of `ris2csv.py`

A shallow embedding of the RIS ↔ CSV converter `src/ris2csv.py` and proofs
about it.  Strings are modelled as `List Char` (`Str`); Python dicts (which
preserve insertion order) are modelled as association lists with
insert-or-replace-in-place semantics; file I/O is abstracted away: each
conversion function takes the parsed contents of its input files and returns
the data it would write, with `Option`/`Except` modelling the raised or caught
exceptions.  ASCII text is assumed (Python's Unicode-aware `str.strip` and
`str.lower` are modelled by their ASCII restrictions), text-mode reads apply
universal-newline translation before splitting into lines, and CSV files
are taken as a header row plus data rows, the `csv` module's quoting
round-trip being the identity on that representation.
-/

namespace Ris2Csv

/-- Strings as lists of characters. -/
abbrev Str := List Char

/-- Conversion from Lean string literals into the embedding's strings. -/
def str (s : String) : Str := s.data

/-! ## Python string primitives -/

/-- Python's whitespace characters (ASCII): the set stripped by `str.strip()`
and matched by the regex class `\s`. -/
def isPySpace (c : Char) : Bool :=
  c = ' ' || c = '\t' || c = '\n' || c = '\r' || c.toNat = 11 || c.toNat = 12

/-- Remove trailing Python whitespace. -/
def dropTrail (l : Str) : Str := (l.reverse.dropWhile isPySpace).reverse

/-- Python `str.strip()`. -/
def pyStrip (l : Str) : Str := dropTrail (l.dropWhile isPySpace)

/-- Python `str.split(sep)` for a one-character separator: `"".split(sep)`
is `[""]`, separators at the ends produce empty pieces; a non-separator
character is prepended to the first piece of the remainder's split (the
split of any string has at least one piece, so `headD`/`tail` never see an
empty list). -/
def splitChar (sep : Char) : Str → List Str
  | [] => [[]]
  | c :: rest =>
    if c = sep then [] :: splitChar sep rest
    else (c :: (splitChar sep rest).headD []) :: (splitChar sep rest).tail

/-- Splitting file contents into lines, as `f.readlines()` does after
universal-newline translation (the `'\n'` terminators themselves are
dropped; the parser strips every line anyway). -/
def splitNl : Str → List Str := splitChar '\n'

/-- Universal-newline translation performed when a file is opened for
reading in text mode with the default `newline=None`: `"\r\n"` and a lone
`'\r'` are both turned into `'\n'`. -/
def univNl : Str → Str
  | [] => []
  | [c] => if c = '\r' then ['\n'] else [c]
  | c :: d :: rest =>
    if c = '\r' then
      if d = '\n' then '\n' :: univNl rest
      else '\n' :: univNl (d :: rest)
    else c :: univNl (d :: rest)

/-- Python `value.split(';')`. -/
def splitSemi : Str → List Str := splitChar ';'

/-- Python `';'.join(vs)`. -/
def joinSemi : List Str → Str
  | [] => []
  | [v] => v
  | v :: w :: vs => v ++ ';' :: joinSemi (w :: vs)

/-! ## Python dicts as ordered association lists -/

/-- `d[k]` / `d.get(k)`: first (and, for dicts, only) binding of `k`. -/
def dictLookup {α : Type} : List (Str × α) → Str → Option α
  | [], _ => none
  | p :: ps, k => if p.1 = k then some p.2 else dictLookup ps k

/-- Python `k in d`. -/
def hasKey {α : Type} (d : List (Str × α)) (k : Str) : Bool :=
  (dictLookup d k).isSome

/-- Python `d[k] = v`: replace in place if the key exists (dicts keep the
key's original position), otherwise append at the end. -/
def dictInsert {α : Type} : List (Str × α) → Str → α → List (Str × α)
  | [], k, v => [(k, v)]
  | p :: ps, k, v => if p.1 = k then (k, v) :: ps else p :: dictInsert ps k v

/-- Python `d.keys()` in insertion order. -/
def dictKeys {α : Type} (d : List (Str × α)) : List Str := d.map (·.1)

/-! ## Python `sorted` on strings -/

/-- Lexicographic comparison of strings by code point, as Python's `<=`. -/
def strLeB : Str → Str → Bool
  | [], _ => true
  | _ :: _, [] => false
  | a :: as, b :: bs =>
    if a.toNat < b.toNat then true
    else if b.toNat < a.toNat then false
    else strLeB as bs

/-- The order used by Python's `sorted` on strings. -/
def strLe (a b : Str) : Prop := strLeB a b = true

instance : DecidableRel strLe := fun a b =>
  inferInstanceAs (Decidable (strLeB a b = true))

/-- Python `sorted(l)` for a list of strings (a stable sort by `strLe`;
on the duplicate-free key lists arising here any correct sort agrees). -/
def sortKeys (l : List Str) : List Str := l.insertionSort strLe

/-! ## The record parser (`parse_ris_file`, lines 36–71) -/

/-- A record value: a single string, promoted to a list on the second
occurrence of the same tag (source lines 60–66). -/
inductive Value where
  | scalar (s : Str)
  | multi (vs : List Str)
deriving DecidableEq

instance : Inhabited Value := ⟨.scalar []⟩

/-- A reference record: a Python dict from tag to value. -/
abbrev Record := List (Str × Value)

def tyTag : Str := str "TY"
def erTag : Str := str "ER"

/-- The character class `[A-Z0-9]`. -/
def isTagChar (c : Char) : Bool :=
  (65 ≤ c.toNat && c.toNat ≤ 90) || (48 ≤ c.toNat && c.toNat ≤ 57)

/-- `re.match(r'^([A-Z0-9]{2})\s*-\s*(.*)$', line)` on a newline-free line:
two tag characters, then (deterministically, since `\s` never matches `-`)
a maximal whitespace run, a literal `-`, a maximal whitespace run, and the
captured remainder.  Returns the tag and the raw capture (the caller strips
it, as the source does with `value.strip()`). -/
def matchTagLine : Str → Option (Str × Str)
  | c1 :: c2 :: rest =>
    if isTagChar c1 && isTagChar c2 then
      if (rest.dropWhile isPySpace).head? = some '-' then
        some ([c1, c2], ((rest.dropWhile isPySpace).tail).dropWhile isPySpace)
      else none
    else none
  | _ => none

/-- Storing one parsed `(tag, value)` pair into the in-progress record
(source lines 60–66): append to an existing list, promote an existing scalar
to a two-element list, or add a fresh scalar binding. -/
def addTag (cur : Record) (tag v : Str) : Record :=
  match dictLookup cur tag with
  | some (.multi vs) => dictInsert cur tag (.multi (vs ++ [v]))
  | some (.scalar s) => dictInsert cur tag (.multi [s, v])
  | none => cur ++ [(tag, .scalar v)]

/-- One iteration of the parser's line loop (source lines 44–66).  The state
is `(references, current_ref)`. -/
def parseStep (st : List Record × Record) (rawLine : Str) : List Record × Record :=
  if pyStrip rawLine = [] then st
  else if erTag.isPrefixOf (pyStrip rawLine) then
    if st.2 ≠ [] ∧ hasKey st.2 tyTag = true then (st.1 ++ [st.2], []) else st
  else
    match matchTagLine (pyStrip rawLine) with
    | some (tag, rawVal) =>
      if pyStrip rawVal ≠ [] ∨ tag = tyTag then (st.1, addTag st.2 tag (pyStrip rawVal))
      else st
    | none => st

/-- The end-of-input flush (source lines 68–69): the trailing in-progress
record joins the output under the same condition as at an `ER` line. -/
def flushTail (st : List Record × Record) : List Record :=
  if st.2 ≠ [] ∧ hasKey st.2 tyTag = true then st.1 ++ [st.2] else st.1

/-- The parser's loop over all lines plus the end-of-input flush
(source lines 44–69). -/
def parse_lines (lines : List Str) : List Record :=
  flushTail (lines.foldl parseStep ([], []))

/-- `parse_ris_file` (source lines 36–71) on the raw contents of the file:
the file is opened in text mode, so universal-newline translation applies
before `readlines()` splits the text into lines. -/
def parse_ris_file (content : Str) : List Record :=
  parse_lines (splitNl (univNl content))

/-! ## The schema loader (`load_ris_standards`, lines 7–34) -/

structure StdInfo where
  description : Str
  notes : Str
deriving DecidableEq

instance : Inhabited StdInfo := ⟨⟨[], []⟩⟩

/-- The standards dict, tag ↦ description/notes. -/
abbrev Standards := List (Str × StdInfo)

/-- Processing one schema CSV row (source lines 13–24): rows with fewer than
two columns are skipped, as are rows whose stripped tag is empty; column 1 is
the description and column 3, when present, the notes. -/
def loadRow (std : Standards) (row : List Str) : Standards :=
  if row.length < 2 then std
  else if pyStrip (row.headD []) ≠ [] then
    dictInsert std (pyStrip (row.headD [])) ⟨row.getD 1 [], row.getD 3 []⟩
  else std

/-- `load_ris_standards` (source lines 7–34): fold over the rows, then fail
(`raise ValueError`) when the mandatory `TY` tag is absent. -/
def load_ris_standards (rows : List (List Str)) : Except Unit Standards :=
  if hasKey (rows.foldl loadRow []) tyTag = true then .ok (rows.foldl loadRow [])
  else .error ()

/-- The multi-value tag set (source lines 155–156): tags whose lowercased
notes contain both `"each"` and `"line"` as substrings. -/
def lowerStr (s : Str) : Str := s.map Char.toLower

/-- Substring test, Python's `needle in hay`. -/
def hasSub (hay needle : Str) : Bool :=
  hay.tails.any (fun t => needle.isPrefixOf t)

def multiValueFields (std : Standards) : List Str :=
  (std.filter fun p =>
    hasSub (lowerStr p.2.notes) (str "each") && hasSub (lowerStr p.2.notes) (str "line")).map (·.1)

/-! ## The tabular projector (`convert_ris_to_csv`, lines 73–108) -/

/-- One CSV cell (source lines 89–91): missing tag ↦ empty string, list value
↦ `';'.join`, scalar ↦ itself. -/
def refCell (ref : Record) (field : Str) : Str :=
  match dictLookup ref field with
  | none => []
  | some (.scalar s) => s
  | some (.multi vs) => joinSemi vs

/-- One CSV data row (source lines 86–93). -/
def projectRecord (fields : List Str) (ref : Record) : List Str :=
  fields.map (refCell ref)

/-- `convert_ris_to_csv` (source lines 73–108): load the schema, parse the
RIS contents, and produce the header (the sorted schema tags) together with
one row per reference.  `none` models the per-file `except` handler catching
the schema failure, in which case nothing is written.  The post-write
validation (lines 95–103) only prints diagnostics after the file exists and
is not modelled. -/
def convert_ris_to_csv (stdRows : List (List Str)) (content : Str) :
    Option (List Str × List (List Str)) :=
  match load_ris_standards stdRows with
  | .error _ => none
  | .ok std =>
    some (sortKeys (dictKeys std),
      (parse_ris_file content).map (projectRecord (sortKeys (dictKeys std))))

/-- The per-file loop of `main` (source lines 216–219): every RIS file is
attempted; `convert_ris_to_csv` catches its own exceptions, so one file's
failure never stops the loop. -/
def processAll (stdRows : List (List Str)) (contents : List Str) :
    List (Option (List Str × List (List Str))) :=
  contents.map (convert_ris_to_csv stdRows)

/-! ## The tabular merger (`merge_csv_files`, lines 110–146) -/

/-- A CSV file as read by `csv.reader`: the header row and the data rows. -/
structure CsvFile where
  header : List Str
  rows : List (List Str)
deriving DecidableEq

instance : Inhabited CsvFile := ⟨⟨[], []⟩⟩

/-- The merge loop (source lines 124–135): skip the merged-output path
itself, skip files whose sorted header differs from the canonical field
list, and add every remaining row to the unique-row set. -/
def mergeFold (fields : List Str) (outName : Str) :
    List (Str × CsvFile) → Finset (List Str) → Finset (List Str)
  | [], acc => acc
  | nf :: fs, acc =>
    if nf.1 = outName then mergeFold fields outName fs acc
    else if sortKeys nf.2.header ≠ fields then mergeFold fields outName fs acc
    else mergeFold fields outName fs (nf.2.rows.foldl (fun a row => insert row a) acc)

/-- `merge_csv_files` (source lines 110–146): `none` models both the caught
schema failure and the early return on an empty file list (no output file is
written in either case); otherwise the set of unique rows that is written
after the canonical header.  (The source iterates a Python `set`, whose
order is unspecified, hence a `Finset`.) -/
def merge_csv_files (stdRows : List (List Str)) (outName : Str)
    (files : List (Str × CsvFile)) : Option (Finset (List Str)) :=
  match load_ris_standards stdRows with
  | .error _ => none
  | .ok std =>
    if files = [] then none
    else some (mergeFold (sortKeys (dictKeys std)) outName files ∅)

/-! ## The record serializer (`convert_csv_to_ris`, lines 148–192) -/

/-- `csv.DictReader`'s row dict: field names zipped with the row's cells
(missing cells behave as empty, extra cells are dropped). -/
def rowDict (header row : List Str) : List (Str × Str) := header.zip row

/-- `row[field]`, with a missing cell reading as empty. -/
def rowGet (d : List (Str × Str)) (k : Str) : Str := (dictLookup d k).getD []

/-- The text of one output line before its newline: `f"{tag}  - {value}"`. -/
def lineCore (tag v : Str) : Str := tag ++ str "  - " ++ v

/-- One full output line: `f"{tag}  - {value}\n"`. -/
def emitLine (tag v : Str) : Str := lineCore tag v ++ ['\n']

/-- The per-field writes (source lines 177–184): a multi-value field's cell
is split on `';'` and each piece with non-empty strip becomes its own line;
any other field's cell is written verbatim as a single line. -/
def serializeField (multiF : List Str) (field cell : Str) : Str :=
  if field ∈ multiF then
    (splitSemi cell).foldl
      (fun acc piece =>
        if pyStrip piece ≠ [] then acc ++ emitLine field (pyStrip piece) else acc)
      []
  else emitLine field cell

/-- The writes for one row (source lines 170–187): the `TY` line, then every
canonical field in order except `TY`/`ER` and empty cells, then
`"ER  - \n\n"`. -/
def serializeRow (fields multiF : List Str) (d : List (Str × Str)) : Str :=
  emitLine tyTag (rowGet d tyTag) ++
    fields.foldl
      (fun acc field =>
        if field = tyTag ∨ field = erTag ∨ rowGet d field = [] then acc
        else acc ++ serializeField multiF field (rowGet d field))
      [] ++
    str "ER  - \n\n"

/-- The row loop of `convert_csv_to_ris` (source lines 165–187): concatenate
the blocks of the rows whose `TY` cell is non-empty. -/
def serializeRows (header fields multiF : List Str) (rows : List (List Str)) : Str :=
  rows.foldl
    (fun acc row =>
      if rowGet (rowDict header row) tyTag = [] then acc
      else acc ++ serializeRow fields multiF (rowDict header row))
    []

/-- `convert_csv_to_ris` (source lines 148–192): load the schema, derive the
multi-value tags, reject the file (producing no output) unless the sorted
header equals the canonical field list, then emit one block per row, skipping
rows whose `TY` cell is empty. -/
def convert_csv_to_ris (stdRows : List (List Str)) (file : CsvFile) : Option Str :=
  match load_ris_standards stdRows with
  | .error _ => none
  | .ok std =>
    if sortKeys file.header ≠ sortKeys (dictKeys std) then none
    else
      some (serializeRows file.header (sortKeys (dictKeys std)) (multiValueFields std)
        file.rows)

/-! ## Specification-side definitions

Definitions written from the specification's wording, used to state the
claims: the serialized block structure, well-formedness of records for the
round-trip, and equality of record sets "up to multi-value field ordering
and canonical column ordering". -/

/-- The (newline-free) output lines contributed by one field, as the spec
describes them: for a multi-value column, one line per `';'`-piece with
non-empty strip, in split order; otherwise a single verbatim line. -/
def fieldLines (multiF : List Str) (field cell : Str) : List Str :=
  if field ∈ multiF then
    (splitSemi cell).filterMap fun p =>
      if pyStrip p ≠ [] then some (lineCore field (pyStrip p)) else none
  else [lineCore field cell]

/-- The block emitted for one row, as the spec describes it: the `TY` line,
then each other canonical column in order (skipping `TY`, `ER` and empty
cells), then the blank-valued end-marker line, then a blank line. -/
def blockLines (fields multiF : List Str) (d : List (Str × Str)) : List Str :=
  lineCore tyTag (rowGet d tyTag) ::
    (((fields.filter fun f => ¬(f = tyTag ∨ f = erTag ∨ rowGet d f = [])).map
        fun f => fieldLines multiF f (rowGet d f)).flatten ++
      [str "ER  - ", []])

/-- Rebuild a text from newline-terminated lines. -/
def joinLines (ls : List Str) : Str := (ls.map fun l => l ++ ['\n']).flatten

/-- A value string that survives a write/strip round-trip: non-empty, no
Python whitespace at either end, and no embedded `'\n'` or `'\r'` (either
would end the written line early when the file is read back with
universal-newline translation). -/
def cleanVal (v : Str) : Bool :=
  !v.isEmpty && (v.head?.all fun c => !isPySpace c) &&
    (v.getLast?.all fun c => !isPySpace c) && !v.contains '\n' && !v.contains '\r'

/-- The record has a scalar (single-occurrence) `TY` entry. -/
def isScalarTY (r : Record) : Bool :=
  match dictLookup r tyTag with
  | some (.scalar _) => true
  | _ => false

/-- The record's `TY` string. -/
def tyVal (r : Record) : Str :=
  match dictLookup r tyTag with
  | some (.scalar s) => s
  | _ => []

/-- The list of value strings stored at a tag. -/
def vals (r : Record) (f : Str) : List Str :=
  match dictLookup r f with
  | none => []
  | some (.scalar s) => [s]
  | some (.multi v) => v

/-- The parser's storage for a list of successive values of one tag:
a single value stays scalar, two or more become a list. -/
def valueOfVals : List Str → Value
  | [v] => .scalar v
  | v => .multi v

/-- The record produced by parsing one serialized block back: `TY` first,
then the record's other tags in canonical column order. -/
def canonRecord (fields : List Str) (r : Record) : Record :=
  (tyTag, .scalar (tyVal r)) ::
    (fields.filter fun f => ¬(f = tyTag ∨ f = erTag ∨ refCell r f = [])).map
      fun f => (f, valueOfVals (vals r f))

/-- A well-formed tag: two characters in `[A-Z0-9]`, not the end marker,
declared in the schema. -/
def wfTag (fields : List Str) (t : Str) : Prop :=
  t.length = 2 ∧ (∀ c ∈ t, isTagChar c = true) ∧ t ≠ erTag ∧ t ∈ fields

instance (fields : List Str) (t : Str) : Decidable (wfTag fields t) :=
  inferInstanceAs
    (Decidable (t.length = 2 ∧ (∀ c ∈ t, isTagChar c = true) ∧ t ≠ erTag ∧ t ∈ fields))

/-- A well-formed stored value: clean strings, `';'` only in fields the
schema does not classify multi-value, lists only at multi-value tags and
only with at least two elements (the parser never builds shorter lists). -/
def wfValueB (multiF : List Str) (tag : Str) : Value → Bool
  | .scalar s => cleanVal s && (!decide (tag ∈ multiF) || !s.contains ';')
  | .multi vs =>
    decide (2 ≤ vs.length) && decide (tag ∈ multiF) &&
      vs.all fun v => cleanVal v && !v.contains ';'

/-- A record that the pipeline can round-trip: distinct keys, a scalar
non-empty `TY`, and well-formed tags and values throughout. -/
def wfRecordB (fields multiF : List Str) (r : Record) : Bool :=
  decide (dictKeys r).Nodup && isScalarTY r &&
    r.all fun p => decide (wfTag fields p.1) && wfValueB multiF p.1 p.2

/-- Comparison of two optional values "up to multi-value field ordering":
scalars must agree, lists must agree as multisets. -/
def valueEquivB : Option Value → Option Value → Bool
  | none, none => true
  | some (.scalar s), some (.scalar t) => decide (s = t)
  | some (.multi vs), some (.multi ws) => decide ((vs : Multiset Str) = (ws : Multiset Str))
  | _, _ => false

/-- Record equality "up to multi-value field ordering and canonical column
ordering": the same tags carry equivalent values, entry order ignored. -/
def recordEquivB (r s : Record) : Bool :=
  (dictKeys r ++ dictKeys s).all fun t => valueEquivB (dictLookup r t) (dictLookup s t)

/-- Record-set equality up to the spec's two allowed reorderings. -/
def recordsEquivB (rs ss : List Record) : Bool :=
  rs.length == ss.length && (rs.zip ss).all fun p => recordEquivB p.1 p.2

/-! ## Sanity checks on concrete inputs -/

example :
    parse_ris_file (str "TY  - JOUR\nAU  - Smith, J\nAU  - Doe, A\nTI  - A Study\nER  - ") =
      [[(str "TY", .scalar (str "JOUR")),
        (str "AU", .multi [str "Smith, J", str "Doe, A"]),
        (str "TI", .scalar (str "A Study"))]] := by decide

example :
    load_ris_standards [[str "TY", str "type"], [str "AU", str "author"]] =
      .ok [(str "TY", ⟨str "type", []⟩), (str "AU", ⟨str "author", []⟩)] := rfl

example : load_ris_standards [[str "AA", str "x"]] = .error () := rfl

example : sortKeys [str "TY", str "AU", str "TI"] = [str "AU", str "TI", str "TY"] := by
  decide

example : cleanVal (str "a\rb") = false := by decide

example :
    parse_ris_file (str "TY  - J\nAU  - a\rb\nER  - ") =
      [[(str "TY", .scalar (str "J")), (str "AU", .scalar (str "a"))]] := by decide

example :
    convert_csv_to_ris [[str "TY", str "t"], [str "AU", str "a"]]
      ⟨[str "AU", str "TY"], [[str "x", str "J"]]⟩ =
      some (str "TY  - J\nAU  - x\nER  - \n\n") := by decide

/-! ## Dictionary lemmas -/

theorem dictLookup_append {α : Type} (d e : List (Str × α)) (k : Str) :
    dictLookup (d ++ e) k = (dictLookup d k).orElse fun _ => dictLookup e k := by
  induction d with
  | nil => simp [dictLookup]
  | cons p ps ih => by_cases h : p.1 = k <;> simp [dictLookup, h, ih]

theorem hasKey_iff_mem {α : Type} (d : List (Str × α)) (k : Str) :
    hasKey d k = true ↔ k ∈ dictKeys d := by
  induction d with
  | nil => simp [hasKey, dictLookup, dictKeys]
  | cons p ps ih =>
    by_cases h : p.1 = k
    · simp only [hasKey, dictLookup, if_pos h, Option.isSome_some, dictKeys,
        List.map_cons, List.mem_cons]
      exact ⟨fun _ => Or.inl h.symm, fun _ => trivial⟩
    · simp only [hasKey, dictLookup, if_neg h, dictKeys, List.map_cons, List.mem_cons]
      rw [show (ps.map (·.1) : List Str) = dictKeys ps from rfl, ← ih]
      simp only [hasKey]
      constructor
      · exact fun hs => Or.inr hs
      · rintro (hs | hs)
        · exact absurd hs.symm h
        · exact hs

theorem dictLookup_eq_none_iff {α : Type} (d : List (Str × α)) (k : Str) :
    dictLookup d k = none ↔ k ∉ dictKeys d := by
  rw [← hasKey_iff_mem]
  cases h : dictLookup d k <;> simp [hasKey, h]

theorem dictLookup_some_mem {α : Type} {d : List (Str × α)} {k : Str} {v : α}
    (h : dictLookup d k = some v) : (k, v) ∈ d := by
  induction d with
  | nil => simp [dictLookup] at h
  | cons p ps ih =>
    by_cases hp : p.1 = k
    · simp only [dictLookup, if_pos hp] at h
      cases p
      simp_all
    · simp only [dictLookup, if_neg hp] at h
      exact List.mem_cons_of_mem _ (ih h)

theorem dictLookup_dictInsert_self {α : Type} (d : List (Str × α)) (k : Str) (v : α) :
    dictLookup (dictInsert d k v) k = some v := by
  induction d with
  | nil =>
    show dictLookup [(k, v)] k = some v
    simp [dictLookup]
  | cons p ps ih =>
    show dictLookup (if p.1 = k then (k, v) :: ps else p :: dictInsert ps k v) k = some v
    by_cases h : p.1 = k
    · rw [if_pos h]
      simp [dictLookup]
    · rw [if_neg h]
      simp only [dictLookup]
      rw [if_neg h, ih]

theorem dictLookup_dictInsert_ne {α : Type} (d : List (Str × α)) {k k' : Str} (v : α)
    (h : k ≠ k') : dictLookup (dictInsert d k v) k' = dictLookup d k' := by
  induction d with
  | nil =>
    show dictLookup [(k, v)] k' = dictLookup [] k'
    simp only [dictLookup]
    rw [if_neg h]
  | cons p ps ih =>
    show dictLookup (if p.1 = k then (k, v) :: ps else p :: dictInsert ps k v) k' = _
    by_cases hp : p.1 = k
    · rw [if_pos hp]
      simp only [dictLookup]
      rw [if_neg h, hp, if_neg h]
    · rw [if_neg hp]
      simp only [dictLookup]
      rw [ih]

theorem dictKeys_dictInsert {α : Type} (d : List (Str × α)) (k : Str) (v : α) :
    dictKeys (dictInsert d k v) =
      if k ∈ dictKeys d then dictKeys d else dictKeys d ++ [k] := by
  induction d with
  | nil =>
    show dictKeys [(k, v)] = if k ∈ ([] : List Str) then _ else [] ++ [k]
    rw [if_neg (List.not_mem_nil k)]
    rfl
  | cons p ps ih =>
    show dictKeys (if p.1 = k then (k, v) :: ps else p :: dictInsert ps k v) = _
    have hmem : (k ∈ dictKeys (p :: ps)) ↔ (k = p.1 ∨ k ∈ dictKeys ps) := by
      show k ∈ p.1 :: dictKeys ps ↔ _
      exact List.mem_cons
    by_cases h : p.1 = k
    · rw [if_pos h, if_pos (hmem.2 (Or.inl h.symm))]
      show k :: dictKeys ps = p.1 :: dictKeys ps
      rw [h]
    · rw [if_neg h]
      have hKeysCons :
          dictKeys (p :: dictInsert ps k v) = p.1 :: dictKeys (dictInsert ps k v) := rfl
      by_cases h2 : k ∈ dictKeys ps
      · rw [hKeysCons, ih, if_pos h2, if_pos (hmem.2 (Or.inr h2))]
        rfl
      · rw [hKeysCons, ih, if_neg h2,
          if_neg (fun hc => by
            rcases hmem.1 hc with hc | hc
            · exact h hc.symm
            · exact h2 hc)]
        rfl

theorem dictKeys_dictInsert_nodup {α : Type} (d : List (Str × α)) (k : Str) (v : α)
    (h : (dictKeys d).Nodup) : (dictKeys (dictInsert d k v)).Nodup := by
  rw [dictKeys_dictInsert]
  split
  · exact h
  · next hk => simp [List.nodup_append, h, hk]

/-! ## Schema loader lemmas -/

theorem load_keys_nodup_aux (rows : List (List Str)) :
    ∀ std : Standards, (dictKeys std).Nodup →
      (dictKeys (rows.foldl loadRow std)).Nodup := by
  induction rows with
  | nil => intro std h; exact h
  | cons row rest ih =>
    intro std h
    simp only [List.foldl_cons]
    apply ih
    unfold loadRow
    split
    · exact h
    · split
      · exact dictKeys_dictInsert_nodup _ _ _ h
      · exact h

theorem load_ok_facts {rows : List (List Str)} {std : Standards}
    (h : load_ris_standards rows = .ok std) :
    hasKey std tyTag = true ∧ (dictKeys std).Nodup := by
  unfold load_ris_standards at h
  split at h
  · next hty =>
    cases h
    exact ⟨hty, load_keys_nodup_aux rows [] (by simp [dictKeys])⟩
  · cases h

theorem load_error_of_not_hasKey {rows : List (List Str)}
    (h : hasKey (rows.foldl loadRow []) tyTag = false) :
    load_ris_standards rows = .error () := by
  unfold load_ris_standards
  simp [h]

/-! ## Parser step lemmas -/

theorem parseStep_blank (st : List Record × Record) (line : Str)
    (h : pyStrip line = []) : parseStep st line = st := by
  simp [parseStep, h]

/-- Claim C4 (amended): at a line beginning with the end-marker token the
in-progress record is appended and reset when it is non-empty and has a
`TY` key; otherwise it is kept unchanged — its entries carry over into the
following record rather than being discarded. -/
theorem er_line_reset_iff_emitted (refs : List Record) (cur : Record) (line : Str)
    (h : erTag.isPrefixOf (pyStrip line) = true) :
    parseStep (refs, cur) line =
      if cur ≠ [] ∧ hasKey cur tyTag = true then (refs ++ [cur], ([] : Record))
      else (refs, cur) := by
  have hne : pyStrip line ≠ [] := by
    intro h0
    rw [h0] at h
    exact absurd h (by decide)
  simp [parseStep, hne, h]

/-- Claim C4 (counterexample to the claim as stated): a record lacking `TY`
at its end marker is neither discarded nor reset — here the `AU` entry of the
first, `TY`-less record survives into the record emitted at the second end
marker, so the parse is not `[[(TY, J)]]` as the claim would require. -/
theorem er_line_carryover :
    parse_ris_file (str "AU  - x\nER  -\nTY  - J\nER  -") =
      [[(str "AU", Value.scalar (str "x")), (str "TY", Value.scalar (str "J"))]] ∧
    parse_ris_file (str "AU  - x\nER  -\nTY  - J\nER  -") ≠
      [[(str "TY", Value.scalar (str "J"))]] := by
  constructor
  · decide
  · decide

theorem er_line_reset_iff_emitted_witness :
    parseStep ([], [(str "AU", Value.scalar (str "x"))]) (str "ER  - ") =
      ([], [(str "AU", Value.scalar (str "x"))]) :=
  (er_line_reset_iff_emitted [] [(str "AU", Value.scalar (str "x"))] (str "ER  - ")
    (by decide)).trans (by decide)

/-! ## The parser's output invariant (claim C3) -/

theorem parseStep_refs_cases (st : List Record × Record) (line : Str) :
    (parseStep st line).1 = st.1 ∨
      ((parseStep st line).1 = st.1 ++ [st.2] ∧ st.2 ≠ [] ∧ hasKey st.2 tyTag = true) := by
  unfold parseStep
  split
  · exact Or.inl rfl
  · split
    · split
      · next hc => exact Or.inr ⟨rfl, hc⟩
      · exact Or.inl rfl
    · split
      · split
        · exact Or.inl rfl
        · exact Or.inl rfl
      · exact Or.inl rfl

theorem foldl_parseStep_refs_inv (lines : List Str) :
    ∀ st : List Record × Record,
      (∀ r ∈ st.1, r ≠ [] ∧ hasKey r tyTag = true) →
      ∀ r ∈ (lines.foldl parseStep st).1, r ≠ [] ∧ hasKey r tyTag = true := by
  induction lines with
  | nil => intro st h; exact h
  | cons line rest ih =>
    intro st h
    simp only [List.foldl_cons]
    apply ih
    rcases parseStep_refs_cases st line with hc | hc
    · rw [hc]; exact h
    · rw [hc.1]
      intro r hr
      rcases List.mem_append.1 hr with h1 | h1
      · exact h r h1
      · rcases List.mem_singleton.1 h1 with rfl
        exact hc.2

/-- Claim C3 (amended): every record the parser emits — at an end marker or
at the end-of-input flush — is non-empty and contains a `TY` *key*; however
the stored `TY` value may be the empty string (see the counterexample), so
key presence, not value non-emptiness, is the emission condition. -/
theorem emitted_records_have_ty_key (content : Str) (r : Record)
    (hr : r ∈ parse_ris_file content) : r ≠ [] ∧ hasKey r tyTag = true := by
  unfold parse_ris_file parse_lines flushTail at hr
  have base : ∀ x ∈ (([], []) : List Record × Record).1,
      x ≠ [] ∧ hasKey x tyTag = true := by simp
  have main := foldl_parseStep_refs_inv (splitNl (univNl content)) ([], []) base
  split at hr
  · next hc =>
    rcases List.mem_append.1 hr with h1 | h1
    · exact main r h1
    · rcases List.mem_singleton.1 h1 with rfl
      exact hc
  · exact main r hr

/-- Claim C3 (counterexample to the claim as stated): a record whose `TY`
value is the empty string *is* appended — the emission test is only key
presence (`'TY' in current_ref`), and line 59 stores an empty value for the
tag `TY`. -/
theorem empty_ty_record_emitted :
    parse_ris_file (str "TY  -\nER  -") = [[(str "TY", Value.scalar [])]] := by
  decide

theorem emitted_records_have_ty_key_witness :
    [(str "TY", Value.scalar (str "J"))] ∈ parse_ris_file (str "TY  - J\nER  - ") ∧
      hasKey [(str "TY", Value.scalar (str "J"))] tyTag = true :=
  ⟨by decide,
    (emitted_records_have_ty_key (str "TY  - J\nER  - ")
      [(str "TY", Value.scalar (str "J"))] (by decide)).2⟩

/-! ## Schema failure is caught per stage (claim C2) -/

/-- Claim C2 (amended): when the schema source has no `TY` row, loading
fails (`SchemaError`) and every stage that needs the schema fails before
parsing its input or producing any output — but the failure is caught at
each stage's own boundary, so the run does not halt: the per-file loop still
attempts every remaining file (each attempt yielding nothing), and the merge
and serialization stages likewise fail without output. -/
theorem schema_error_fails_all_stages (stdRows : List (List Str))
    (h : load_ris_standards stdRows = .error ()) :
    (∀ content, convert_ris_to_csv stdRows content = none) ∧
    (∀ contents, processAll stdRows contents = contents.map fun _ => none) ∧
    (∀ outName files, merge_csv_files stdRows outName files = none) ∧
    (∀ file, convert_csv_to_ris stdRows file = none) := by
  refine ⟨fun c => ?_, fun cs => ?_, fun o fs => ?_, fun f => ?_⟩
  · simp [convert_ris_to_csv, h]
  · unfold processAll
    apply List.map_congr_left
    intro a _
    simp [convert_ris_to_csv, h]
  · simp [merge_csv_files, h]
  · simp [convert_csv_to_ris, h]

/-- Claim C2 (counterexample to the claim as stated): with a `TY`-less
schema the run does not halt at the schema failure — both input files are
still attempted (two caught per-file failures), because
`convert_ris_to_csv` catches every exception at its per-file boundary. -/
theorem schema_error_does_not_halt_run :
    load_ris_standards [[str "AA", str "desc"]] = .error () ∧
    processAll [[str "AA", str "desc"]]
        [str "TY  - J\nER  - ", str "TY  - K\nER  - "] = [none, none] ∧
    ([none, none] : List (Option (List Str × List (List Str)))).length = 2 :=
  ⟨rfl, rfl, rfl⟩

theorem schema_error_fails_all_stages_witness :
    convert_csv_to_ris [[str "AA", str "desc"]] ⟨[str "TY"], [[str "J"]]⟩ = none :=
  (schema_error_fails_all_stages [[str "AA", str "desc"]] rfl).2.2.2
    ⟨[str "TY"], [[str "J"]]⟩

/-! ## Tag-line storage (claim C5) -/

theorem dictLookup_addTag_self (cur : Record) (tag v : Str) :
    dictLookup (addTag cur tag v) tag =
      some (match dictLookup cur tag with
            | none => .scalar v
            | some (.scalar s) => .multi [s, v]
            | some (.multi vs) => .multi (vs ++ [v])) := by
  unfold addTag
  cases h : dictLookup cur tag with
  | none =>
    rw [dictLookup_append, h]
    simp [dictLookup]
  | some val =>
    cases val with
    | scalar s => exact dictLookup_dictInsert_self cur tag _
    | multi vs => exact dictLookup_dictInsert_self cur tag _

theorem dictLookup_addTag_ne (cur : Record) (tag tag' v : Str) (h : tag ≠ tag') :
    dictLookup (addTag cur tag v) tag' = dictLookup cur tag' := by
  unfold addTag
  cases hl : dictLookup cur tag with
  | none =>
    rw [dictLookup_append]
    cases hl' : dictLookup cur tag' with
    | none => simp [dictLookup, h]
    | some w => simp
  | some val =>
    cases val with
    | scalar s => exact dictLookup_dictInsert_ne cur _ h
    | multi vs => exact dictLookup_dictInsert_ne cur _ h

/-- Claim C5 (confirmed): a matched tag line is stored iff its trimmed value
is non-empty or the tag is `TY`; a first occurrence is stored as a scalar,
a second promotes the scalar to a two-element list, and later occurrences
append at the end, preserving line order. -/
theorem tag_line_storage (refs : List Record) (cur : Record) (line tag rawVal : Str)
    (hne : pyStrip line ≠ [])
    (her : erTag.isPrefixOf (pyStrip line) = false)
    (hm : matchTagLine (pyStrip line) = some (tag, rawVal)) :
    (pyStrip rawVal = [] → tag ≠ tyTag → parseStep (refs, cur) line = (refs, cur)) ∧
    ((pyStrip rawVal ≠ [] ∨ tag = tyTag) →
      parseStep (refs, cur) line = (refs, addTag cur tag (pyStrip rawVal))) ∧
    (dictLookup cur tag = none →
      dictLookup (addTag cur tag (pyStrip rawVal)) tag =
        some (.scalar (pyStrip rawVal))) ∧
    (∀ s, dictLookup cur tag = some (.scalar s) →
      dictLookup (addTag cur tag (pyStrip rawVal)) tag =
        some (.multi [s, pyStrip rawVal])) ∧
    (∀ vs, dictLookup cur tag = some (.multi vs) →
      dictLookup (addTag cur tag (pyStrip rawVal)) tag =
        some (.multi (vs ++ [pyStrip rawVal]))) := by
  refine ⟨?_, ?_, ?_, ?_, ?_⟩
  · intro h1 h2
    unfold parseStep
    rw [if_neg hne, if_neg (by rw [her]; exact Bool.false_ne_true), hm]
    dsimp only
    rw [if_neg (fun hc => hc.elim (fun hx => hx h1) h2)]
  · intro hc
    unfold parseStep
    rw [if_neg hne, if_neg (by rw [her]; exact Bool.false_ne_true), hm]
    dsimp only
    rw [if_pos hc]
  · intro hl
    rw [dictLookup_addTag_self, hl]
  · intro s hl
    rw [dictLookup_addTag_self, hl]
  · intro vs hl
    rw [dictLookup_addTag_self, hl]

theorem tag_line_storage_witness :
    parseStep ([], [(str "AU", Value.scalar (str "a"))]) (str "AU  - b") =
      ([], [(str "AU", Value.multi [str "a", str "b"])]) := by
  have h := tag_line_storage [] [(str "AU", Value.scalar (str "a"))]
    (str "AU  - b") (str "AU") (str "b") (by decide) (by decide) (by decide)
  rw [h.2.1 (Or.inl (by decide))]
  decide

/-! ## The tabular projector (claim C6) -/

theorem mem_zip_map {β : Type} [DecidableEq β] (g : Str → β) :
    ∀ (l : List Str) (f : Str) (c : β), (f, c) ∈ l.zip (l.map g) → c = g f := by
  intro l
  induction l with
  | nil => intro f c hmem; simp at hmem
  | cons a as ih =>
    intro f c hmem
    simp only [List.map_cons, List.zip_cons_cons, List.mem_cons] at hmem
    rcases hmem with hmem | hmem
    · cases hmem
      rfl
    · exact ih f c hmem

/-- Claim C6 (confirmed): the projector's header is exactly the sorted list
of schema tags regardless of record content, the output keeps one row per
record in record order, and each cell is the empty string for an absent tag,
the `';'`-join of a list value, or the scalar string itself. -/
theorem projector_header_rows_cells (stdRows : List (List Str)) (std : Standards)
    (content : Str) (h : load_ris_standards stdRows = .ok std) :
    convert_ris_to_csv stdRows content =
      some (sortKeys (dictKeys std),
        (parse_ris_file content).map (projectRecord (sortKeys (dictKeys std)))) ∧
    (∀ fields : List Str, ∀ ref : Record,
      (projectRecord fields ref).length = fields.length) ∧
    (∀ fields : List Str, ∀ ref : Record, ∀ f c : Str,
      (f, c) ∈ fields.zip (projectRecord fields ref) →
        c = match dictLookup ref f with
            | none => []
            | some (.scalar s) => s
            | some (.multi vs) => joinSemi vs) := by
  refine ⟨by simp [convert_ris_to_csv, h], fun fields ref => by simp [projectRecord], ?_⟩
  intro fields ref f c hmem
  exact mem_zip_map (refCell ref) fields f c hmem

theorem projector_header_rows_cells_witness :
    convert_ris_to_csv [[str "TY", str "t"], [str "AU", str "a"]]
        (str "TY  - J\nER  - ") =
      some ([str "AU", str "TY"], [[[], str "J"]]) :=
  (projector_header_rows_cells [[str "TY", str "t"], [str "AU", str "a"]]
    [(str "TY", ⟨str "t", []⟩), (str "AU", ⟨str "a", []⟩)]
    (str "TY  - J\nER  - ") rfl).1.trans (by decide)

/-! ## The tabular merger (claims C7, C10) -/

theorem mem_foldl_insert (rows : List (List Str)) (acc : Finset (List Str))
    (r : List Str) :
    r ∈ rows.foldl (fun a row => insert row a) acc ↔ r ∈ acc ∨ r ∈ rows := by
  induction rows generalizing acc with
  | nil => simp
  | cons row rest ih =>
    simp only [List.foldl_cons, ih, Finset.mem_insert, List.mem_cons]
    tauto

theorem mergeFold_nil (fields : List Str) (outName : Str) (acc : Finset (List Str)) :
    mergeFold fields outName [] acc = acc := rfl

theorem mergeFold_cons (fields : List Str) (outName : Str) (nf : Str × CsvFile)
    (files : List (Str × CsvFile)) (acc : Finset (List Str)) :
    mergeFold fields outName (nf :: files) acc =
      if nf.1 = outName then mergeFold fields outName files acc
      else if sortKeys nf.2.header ≠ fields then mergeFold fields outName files acc
      else mergeFold fields outName files
        (nf.2.rows.foldl (fun a row => insert row a) acc) := rfl

theorem mem_mergeFold (fields : List Str) (outName : Str)
    (files : List (Str × CsvFile)) (acc : Finset (List Str)) (r : List Str) :
    r ∈ mergeFold fields outName files acc ↔
      r ∈ acc ∨ ∃ nf ∈ files, nf.1 ≠ outName ∧ sortKeys nf.2.header = fields ∧
        r ∈ nf.2.rows := by
  induction files generalizing acc with
  | nil =>
    rw [mergeFold_nil]
    exact ⟨Or.inl, fun h => h.elim id fun ⟨x, hx, _⟩ => absurd hx (List.not_mem_nil x)⟩
  | cons nf fs ih =>
    rw [mergeFold_cons]
    by_cases h1 : nf.1 = outName
    · rw [if_pos h1, ih]
      simp only [List.mem_cons]
      constructor
      · rintro (hr | ⟨x, hx, hne, hh, hrow⟩)
        · exact Or.inl hr
        · exact Or.inr ⟨x, Or.inr hx, hne, hh, hrow⟩
      · rintro (hr | ⟨x, hx | hx, hne, hh, hrow⟩)
        · exact Or.inl hr
        · exact absurd (hx ▸ h1) hne
        · exact Or.inr ⟨x, hx, hne, hh, hrow⟩
    · rw [if_neg h1]
      by_cases h2 : sortKeys nf.2.header ≠ fields
      · rw [if_pos h2, ih]
        simp only [List.mem_cons]
        constructor
        · rintro (hr | ⟨x, hx, hne, hh, hrow⟩)
          · exact Or.inl hr
          · exact Or.inr ⟨x, Or.inr hx, hne, hh, hrow⟩
        · rintro (hr | ⟨x, hx | hx, hne, hh, hrow⟩)
          · exact Or.inl hr
          · exact absurd (hx ▸ hh) h2
          · exact Or.inr ⟨x, hx, hne, hh, hrow⟩
      · rw [if_neg h2, ih, mem_foldl_insert]
        push_neg at h2
        simp only [List.mem_cons]
        constructor
        · rintro ((hr | hr) | ⟨x, hx, hne, hh, hrow⟩)
          · exact Or.inl hr
          · exact Or.inr ⟨nf, Or.inl rfl, h1, h2, hr⟩
          · exact Or.inr ⟨x, Or.inr hx, hne, hh, hrow⟩
        · rintro (hr | ⟨x, hx | hx, hne, hh, hrow⟩)
          · exact Or.inl (Or.inl hr)
          · exact Or.inl (Or.inr (hx ▸ hrow))
          · exact Or.inr ⟨x, hx, hne, hh, hrow⟩

/-- Claim C7 (amended): a tabular source contributes rows iff its path is
not the merged output path and its *sorted header equals the canonical
sorted field list* — a multiset comparison, not a set comparison (a header
that equals the canonical columns as a set but contains a duplicate is
skipped); every data row of an accepted source enters the deduplication
set, and skipped sources do not stop later sources from contributing. -/
theorem merge_membership (stdRows : List (List Str)) (std : Standards)
    (outName : Str) (files : List (Str × CsvFile)) (s : Finset (List Str))
    (hload : load_ris_standards stdRows = .ok std)
    (hm : merge_csv_files stdRows outName files = some s) (r : List Str) :
    r ∈ s ↔ ∃ nf ∈ files, nf.1 ≠ outName ∧
      sortKeys nf.2.header = sortKeys (dictKeys std) ∧ r ∈ nf.2.rows := by
  unfold merge_csv_files at hm
  rw [hload] at hm
  dsimp only at hm
  split at hm
  · cases hm
  · rw [Option.some_inj] at hm
    rw [← hm, mem_mergeFold]
    simp

/-- Claim C7 (counterexample to the claim as stated): a source whose header
equals the canonical column set *as a set* (but with a duplicated column) is
skipped entirely — the code compares `sorted(header)` with the canonical
sorted list, so its row is not added. -/
theorem merge_skips_set_equal_header :
    ([str "TY", str "TY"] : List Str).toFinset = ([str "TY"] : List Str).toFinset ∧
    merge_csv_files [[str "TY", str "t"]] (str "out")
        [(str "a", ⟨[str "TY", str "TY"], [[str "J", str "J"]]⟩)] = some ∅ :=
  ⟨by decide, rfl⟩

theorem merge_membership_witness :
    [str "J"] ∈ ({[str "J"]} : Finset (List Str)) :=
  (merge_membership [[str "TY", str "t"]] [(str "TY", ⟨str "t", []⟩)] (str "out")
    [(str "a", ⟨[str "TY"], [[str "J"]]⟩)] {[str "J"]} rfl (by decide)
    [str "J"]).2 (by decide)

/-- Claim C10 (confirmed): the merger never consumes its own output — a
source whose path equals the merged output path is excluded, so its rows are
never added to the deduplication set. -/
theorem merge_excludes_output_path (stdRows : List (List Str)) (outName : Str)
    (f : CsvFile) (files : List (Str × CsvFile)) (h : files ≠ []) :
    merge_csv_files stdRows outName ((outName, f) :: files) =
      merge_csv_files stdRows outName files := by
  unfold merge_csv_files
  cases hload : load_ris_standards stdRows with
  | error e => rfl
  | ok std =>
    dsimp only
    rw [if_neg (by simp), if_neg h, mergeFold_cons, if_pos rfl]

theorem merge_excludes_output_path_witness :
    merge_csv_files [[str "TY", str "t"]] (str "out")
        [(str "out", ⟨[str "TY"], [[str "K"]]⟩), (str "a", ⟨[str "TY"], [[str "J"]]⟩)] =
      merge_csv_files [[str "TY", str "t"]] (str "out")
        [(str "a", ⟨[str "TY"], [[str "J"]]⟩)] :=
  merge_excludes_output_path [[str "TY", str "t"]] (str "out")
    ⟨[str "TY"], [[str "K"]]⟩ [(str "a", ⟨[str "TY"], [[str "J"]]⟩)] (by decide)

/-! ## The serializer's header check (claim C8) -/

/-- Claim C8 (amended): the serializer's header check compares the *sorted*
field names with the canonical sorted field list: serialization is fatal for
the file (no output) iff the header is not a permutation of the canonical
columns.  In particular a permutation of the canonical columns IS accepted
(see the counterexample), contrary to the exact-ordered-sequence reading. -/
theorem serializer_header_check (stdRows : List (List Str)) (std : Standards)
    (file : CsvFile) (hload : load_ris_standards stdRows = .ok std) :
    convert_csv_to_ris stdRows file = none ↔
      sortKeys file.header ≠ sortKeys (dictKeys std) := by
  unfold convert_csv_to_ris
  rw [hload]
  dsimp only
  by_cases h : sortKeys file.header ≠ sortKeys (dictKeys std)
  · rw [if_pos h]
    simp [h]
  · rw [if_neg h]
    simp [h]

/-- Claim C8 (counterexample to the claim as stated): a header that is a
permutation of the canonical columns — not the identical ordered sequence —
is accepted, and tagged-text output is produced. -/
theorem serializer_accepts_permuted_header :
    [str "TY", str "AU"] ≠
      sortKeys (dictKeys [(str "TY", (⟨str "t", []⟩ : StdInfo)),
        (str "AU", ⟨str "a", []⟩)]) ∧
    convert_csv_to_ris [[str "TY", str "t"], [str "AU", str "a"]]
        ⟨[str "TY", str "AU"], [[str "J", str "x"]]⟩ =
      some (str "TY  - J\nAU  - x\nER  - \n\n") :=
  ⟨by decide, by decide⟩

theorem serializer_header_check_witness :
    convert_csv_to_ris [[str "TY", str "t"]] ⟨[str "TY"], []⟩ ≠ none :=
  fun hn =>
    absurd ((serializer_header_check [[str "TY", str "t"]]
      [(str "TY", ⟨str "t", []⟩)] ⟨[str "TY"], []⟩ rfl).1 hn) (by decide)

/-! ## The serializer's block structure (claim C9) -/

theorem foldl_if_append {α : Type} (p : α → Prop) [DecidablePred p] (g : α → Str)
    (l : List α) (init : Str) :
    l.foldl (fun acc a => if p a then acc ++ g a else acc) init =
      init ++ (l.filterMap fun a => if p a then some (g a) else none).flatten := by
  induction l generalizing init with
  | nil => simp
  | cons a as ih => by_cases h : p a <;> simp [h, ih, List.append_assoc]

theorem foldl_if_skip {α : Type} (q : α → Prop) [DecidablePred q] (g : α → Str)
    (l : List α) (init : Str) :
    l.foldl (fun acc a => if q a then acc else acc ++ g a) init =
      init ++ ((l.filter fun a => ¬ q a).map g).flatten := by
  induction l generalizing init with
  | nil => simp
  | cons a as ih => by_cases h : q a <;> simp [h, ih, List.append_assoc]

theorem joinLines_cons (l : Str) (ls : List Str) :
    joinLines (l :: ls) = l ++ '\n' :: joinLines ls := by
  simp [joinLines]

theorem joinLines_append (l₁ l₂ : List Str) :
    joinLines (l₁ ++ l₂) = joinLines l₁ ++ joinLines l₂ := by
  simp [joinLines]

theorem joinLines_flatten_map {α : Type} (g : α → List Str) (l : List α) :
    joinLines ((l.map g).flatten) = (l.map fun a => joinLines (g a)).flatten := by
  induction l with
  | nil => rfl
  | cons a as ih => simp [joinLines_append, ih]

theorem serializeField_eq (multiF : List Str) (field cell : Str) :
    serializeField multiF field cell = joinLines (fieldLines multiF field cell) := by
  unfold serializeField fieldLines
  by_cases h : field ∈ multiF
  · rw [if_pos h, if_pos h, foldl_if_append (fun p => pyStrip p ≠ [])
      (fun p => emitLine field (pyStrip p)) (splitSemi cell) [], List.nil_append]
    unfold joinLines
    rw [List.map_filterMap]
    congr 1
    exact congrArg (fun fn => List.filterMap fn (splitSemi cell))
      (funext fun p => by by_cases hp : pyStrip p ≠ [] <;> simp [hp, emitLine])
  · rw [if_neg h, if_neg h]
    simp [joinLines, emitLine]

theorem serializeRow_eq (fields multiF : List Str) (d : List (Str × Str)) :
    serializeRow fields multiF d = joinLines (blockLines fields multiF d) := by
  unfold serializeRow blockLines
  rw [foldl_if_skip (fun f => f = tyTag ∨ f = erTag ∨ rowGet d f = [])
    (fun f => serializeField multiF f (rowGet d f)) fields [], List.nil_append,
    joinLines_cons, joinLines_append]
  simp only [serializeField_eq]
  rw [← joinLines_flatten_map]
  have her : joinLines [str "ER  - ", []] = str "ER  - \n\n" := by decide
  rw [her]
  simp [emitLine, lineCore]

theorem serializeRows_eq (header fields multiF : List Str) (rows : List (List Str)) :
    serializeRows header fields multiF rows =
      joinLines (((rows.filter fun row => ¬ rowGet (rowDict header row) tyTag = []).map
        fun row => blockLines fields multiF (rowDict header row)).flatten) := by
  unfold serializeRows
  rw [foldl_if_skip (fun row => rowGet (rowDict header row) tyTag = [])
    (fun row => serializeRow fields multiF (rowDict header row)) rows [],
    List.nil_append]
  simp only [serializeRow_eq]
  rw [← joinLines_flatten_map]

/-- Claim C9 (confirmed): for every accepted tabular input, the serializer's
output is exactly the concatenation, over the rows with a non-empty `TY`
cell, of blocks consisting of the `TY` line first, then every other
canonical column in sorted-tag order (skipping `TY`, the end-marker tag and
empty cells) — a multi-value column's cell split on `';'` into one line per
non-empty trimmed piece in split order, any other cell a single verbatim
line — then the blank-valued end-marker line and a blank separator line. -/
theorem serializer_block_structure (stdRows : List (List Str)) (std : Standards)
    (header : List Str) (rows : List (List Str))
    (hload : load_ris_standards stdRows = .ok std)
    (hhdr : sortKeys header = sortKeys (dictKeys std)) :
    convert_csv_to_ris stdRows ⟨header, rows⟩ =
      some (joinLines
        (((rows.filter fun row => ¬ rowGet (rowDict header row) tyTag = []).map
          fun row => blockLines (sortKeys (dictKeys std)) (multiValueFields std)
            (rowDict header row)).flatten)) := by
  unfold convert_csv_to_ris
  rw [hload]
  dsimp only
  rw [if_neg (by simp [hhdr]), serializeRows_eq]

theorem serializer_block_structure_witness :
    convert_csv_to_ris
        [[str "TY", str "t"],
         [str "AU", str "a", str "x", str "each value on its own line"]]
        ⟨[str "AU", str "TY"], [[str "a1;a2", str "J"]]⟩ =
      some (str "TY  - J\nAU  - a1\nAU  - a2\nER  - \n\n") :=
  (serializer_block_structure
    [[str "TY", str "t"],
     [str "AU", str "a", str "x", str "each value on its own line"]]
    [(str "TY", ⟨str "t", []⟩),
     (str "AU", ⟨str "a", str "each value on its own line"⟩)]
    [str "AU", str "TY"] [[str "a1;a2", str "J"]] rfl (by decide)).trans (by decide)

/-! ## Order facts about `sortKeys` -/

theorem strLeB_cons (x y : Char) (xs ys : Str) :
    strLeB (x :: xs) (y :: ys) = true ↔
      x.toNat < y.toNat ∨ (x.toNat = y.toNat ∧ strLeB xs ys = true) := by
  show (if x.toNat < y.toNat then true
        else if y.toNat < x.toNat then false else strLeB xs ys) = true ↔ _
  by_cases h1 : x.toNat < y.toNat
  · simp [h1]
  · by_cases h2 : y.toNat < x.toNat
    · simp only [if_neg h1, if_pos h2]
      constructor
      · intro h
        exact absurd h Bool.false_ne_true
      · rintro (h | ⟨h, _⟩) <;> omega
    · have hxy : x.toNat = y.toNat := by omega
      rw [if_neg h1, if_neg h2]
      simp only [hxy, Nat.lt_irrefl, false_or, true_and]

theorem strLeB_total (a : Str) : ∀ b : Str, strLeB a b = true ∨ strLeB b a = true := by
  induction a with
  | nil => intro b; exact Or.inl rfl
  | cons x xs ih =>
    intro b
    cases b with
    | nil => exact Or.inr rfl
    | cons y ys =>
      rcases Nat.lt_trichotomy x.toNat y.toNat with h | h | h
      · exact Or.inl ((strLeB_cons x y xs ys).2 (Or.inl h))
      · rcases ih ys with h' | h'
        · exact Or.inl ((strLeB_cons x y xs ys).2 (Or.inr ⟨h, h'⟩))
        · exact Or.inr ((strLeB_cons y x ys xs).2 (Or.inr ⟨h.symm, h'⟩))
      · exact Or.inr ((strLeB_cons y x ys xs).2 (Or.inl h))

theorem strLeB_trans (a : Str) :
    ∀ b c : Str, strLeB a b = true → strLeB b c = true → strLeB a c = true := by
  induction a with
  | nil => intro b c _ _; rfl
  | cons x xs ih =>
    intro b c h1 h2
    cases b with
    | nil => exact absurd h1 (by simp [strLeB])
    | cons y ys =>
      cases c with
      | nil => exact absurd h2 (by simp [strLeB])
      | cons z zs =>
        apply (strLeB_cons x z xs zs).2
        rcases (strLeB_cons x y xs ys).1 h1 with h | ⟨he, hr⟩ <;>
          rcases (strLeB_cons y z ys zs).1 h2 with h' | ⟨he', hr'⟩
        · exact Or.inl (by omega)
        · exact Or.inl (by omega)
        · exact Or.inl (by omega)
        · exact Or.inr ⟨by omega, ih ys zs hr hr'⟩

instance : IsTotal Str strLe :=
  ⟨fun a b => by
    rcases strLeB_total a b with h | h
    · exact Or.inl h
    · exact Or.inr h⟩

instance : IsTrans Str strLe := ⟨fun a b c => strLeB_trans a b c⟩

theorem sortKeys_perm (l : List Str) : List.Perm (sortKeys l) l :=
  List.perm_insertionSort strLe l

theorem sortKeys_idem (l : List Str) : sortKeys (sortKeys l) = sortKeys l :=
  List.Sorted.insertionSort_eq (List.sorted_insertionSort strLe l)

theorem sortKeys_nodup (l : List Str) (h : l.Nodup) : (sortKeys l).Nodup :=
  (sortKeys_perm l).nodup_iff.2 h

theorem mem_sortKeys (a : Str) (l : List Str) : a ∈ sortKeys l ↔ a ∈ l :=
  (sortKeys_perm l).mem_iff

/-! ## Clean values and line-shape lemmas -/

theorem isTagChar_not_space {c : Char} (h : isTagChar c = true) :
    isPySpace c = false := by
  simp only [isTagChar, Bool.or_eq_true, Bool.and_eq_true, decide_eq_true_eq] at h
  simp only [isPySpace, Bool.or_eq_false_iff, decide_eq_false_iff_not]
  refine ⟨⟨⟨⟨⟨?_, ?_⟩, ?_⟩, ?_⟩, ?_⟩, ?_⟩ <;>
    first
      | (rintro rfl; revert h; decide)
      | omega

theorem cleanVal_ne_nil {v : Str} (h : cleanVal v = true) : v ≠ [] := by
  simp only [cleanVal, Bool.and_eq_true, Bool.not_eq_true'] at h
  intro h0
  rw [h0] at h
  exact absurd h.1.1.1.1 (by decide)

theorem cleanVal_no_newline {v : Str} (h : cleanVal v = true) : ('\n' : Char) ∉ v := by
  simp only [cleanVal, Bool.and_eq_true, Bool.not_eq_true'] at h
  intro hmem
  have h2 := h.1.2
  simp [hmem] at h2

theorem cleanVal_no_cr {v : Str} (h : cleanVal v = true) : ('\r' : Char) ∉ v := by
  simp only [cleanVal, Bool.and_eq_true, Bool.not_eq_true'] at h
  intro hmem
  have h2 := h.2
  simp [hmem] at h2

theorem cleanVal_head {v : Str} (h : cleanVal v = true) {c : Char}
    (hc : v.head? = some c) : isPySpace c = false := by
  simp only [cleanVal, Bool.and_eq_true] at h
  have := h.1.1.1.2
  rw [hc] at this
  simpa using this

theorem cleanVal_getLast {v : Str} (h : cleanVal v = true) {c : Char}
    (hc : v.getLast? = some c) : isPySpace c = false := by
  simp only [cleanVal, Bool.and_eq_true] at h
  have := h.1.1.2
  rw [hc] at this
  simpa using this

theorem univNl_eq_self (s : Str) (h : ('\r' : Char) ∉ s) : univNl s = s := by
  induction s with
  | nil => rfl
  | cons c cs ih =>
    have hc : ¬ c = '\r' := fun hc => h (hc ▸ List.mem_cons_self c cs)
    have hcs : ('\r' : Char) ∉ cs := fun hm => h (List.mem_cons_of_mem c hm)
    cases cs with
    | nil =>
      simp only [univNl]
      rw [if_neg hc]
    | cons d rest =>
      simp only [univNl]
      rw [if_neg hc, ih hcs]

theorem pyStrip_eq_self_of_ends (l : Str) (hne : l ≠ [])
    (hh : ∀ c, l.head? = some c → isPySpace c = false)
    (hl : ∀ c, l.getLast? = some c → isPySpace c = false) :
    pyStrip l = l := by
  cases l with
  | nil => exact absurd rfl hne
  | cons c cs =>
    unfold pyStrip dropTrail
    have h1 : isPySpace c = false := hh c rfl
    rw [List.dropWhile_cons_of_neg (by rw [h1]; exact Bool.false_ne_true)]
    cases hrev : (c :: cs).reverse with
    | nil => exact absurd hrev (by simp)
    | cons a t =>
      have hlast : (c :: cs).getLast? = some a := by
        rw [← List.head?_reverse, hrev]
        rfl
      have h2 : isPySpace a = false := hl a hlast
      rw [List.dropWhile_cons_of_neg (by rw [h2]; exact Bool.false_ne_true),
        ← hrev, List.reverse_reverse]

theorem cleanVal_pyStrip {v : Str} (h : cleanVal v = true) : pyStrip v = v :=
  pyStrip_eq_self_of_ends v (cleanVal_ne_nil h) (fun _ hc => cleanVal_head h hc)
    (fun _ hc => cleanVal_getLast h hc)

/-! ## Parsing a single emitted line -/

theorem matchTagLine_cons (c1 c2 : Char) (rest : Str) :
    matchTagLine (c1 :: c2 :: rest) =
      if isTagChar c1 && isTagChar c2 then
        if (rest.dropWhile isPySpace).head? = some '-' then
          some ([c1, c2], ((rest.dropWhile isPySpace).tail).dropWhile isPySpace)
        else none
      else none := rfl

theorem matchTagLine_lineCore (t1 t2 : Char) (v : Str)
    (h1 : isTagChar t1 = true) (h2 : isTagChar t2 = true)
    (hv : ∀ c, v.head? = some c → isPySpace c = false) :
    matchTagLine (lineCore [t1, t2] v) = some ([t1, t2], v) := by
  have hdw : List.dropWhile isPySpace (' ' :: ' ' :: '-' :: ' ' :: v) =
      '-' :: (' ' :: v) := by
    rw [List.dropWhile_cons_of_pos (by decide), List.dropWhile_cons_of_pos (by decide),
      List.dropWhile_cons_of_neg (by decide)]
  have hdv : List.dropWhile isPySpace (' ' :: v) = v := by
    rw [List.dropWhile_cons_of_pos (by decide)]
    cases v with
    | nil => rfl
    | cons c cs =>
      exact List.dropWhile_cons_of_neg (by rw [hv c rfl]; exact Bool.false_ne_true)
  show matchTagLine (t1 :: t2 :: ' ' :: ' ' :: '-' :: ' ' :: v) = some ([t1, t2], v)
  rw [matchTagLine_cons, h1, h2, hdw]
  simp only [List.head?_cons, List.tail_cons, hdv, Bool.and_self, if_true, if_pos rfl]

theorem lineCore_getLast (t1 t2 : Char) (v : Str) (hvne : v ≠ []) :
    (lineCore [t1, t2] v).getLast? = v.getLast? := by
  show (t1 :: t2 :: ' ' :: ' ' :: '-' :: ' ' :: v).getLast? = v.getLast?
  cases v with
  | nil => exact absurd rfl hvne
  | cons a as => simp only [List.getLast?_cons_cons]

theorem pyStrip_lineCore (t1 t2 : Char) (v : Str)
    (h1 : isTagChar t1 = true) (hv : cleanVal v = true) :
    pyStrip (lineCore [t1, t2] v) = lineCore [t1, t2] v := by
  apply pyStrip_eq_self_of_ends
  · show t1 :: t2 :: ' ' :: ' ' :: '-' :: ' ' :: v ≠ []
    exact List.cons_ne_nil _ _
  · intro c hc
    have hh : (lineCore [t1, t2] v).head? = some t1 := rfl
    rw [hh] at hc
    cases hc
    exact isTagChar_not_space h1
  · intro c hc
    rw [lineCore_getLast t1 t2 v (cleanVal_ne_nil hv)] at hc
    exact cleanVal_getLast hv hc

theorem parseStep_data (refs : List Record) (cur : Record) (t1 t2 : Char) (v : Str)
    (h1 : isTagChar t1 = true) (h2 : isTagChar t2 = true)
    (hER : ([t1, t2] : Str) ≠ erTag) (hv : cleanVal v = true) :
    parseStep (refs, cur) (lineCore [t1, t2] v) = (refs, addTag cur [t1, t2] v) := by
  have hstrip := pyStrip_lineCore t1 t2 v h1 hv
  have hmatch := matchTagLine_lineCore t1 t2 v h1 h2 fun c hc => cleanVal_head hv hc
  have hpre : erTag.isPrefixOf (lineCore [t1, t2] v) = false := by
    show List.isPrefixOf ['E', 'R'] (t1 :: t2 :: ' ' :: ' ' :: '-' :: ' ' :: v) = false
    by_cases he : t1 = 'E'
    · by_cases hr : t2 = 'R'
      · exact absurd (show ([t1, t2] : Str) = erTag by rw [he, hr]; decide) hER
      · have : ('R' == t2) = false := by
          simp only [beq_eq_false_iff_ne, ne_eq]
          exact fun hc => hr hc.symm
        simp [List.isPrefixOf, this]
    · have : ('E' == t1) = false := by
        simp only [beq_eq_false_iff_ne, ne_eq]
        exact fun hc => he hc.symm
      simp [List.isPrefixOf, this]
  unfold parseStep
  rw [hstrip, if_neg (show lineCore [t1, t2] v ≠ [] from List.cons_ne_nil _ _),
    if_neg (by rw [hpre]; exact Bool.false_ne_true), hmatch]
  dsimp only
  rw [cleanVal_pyStrip hv, if_pos (Or.inl (cleanVal_ne_nil hv))]

theorem parseStep_er_pos (refs : List Record) (cur : Record) (hne : cur ≠ [])
    (hty : hasKey cur tyTag = true) :
    parseStep (refs, cur) (str "ER  - ") = (refs ++ [cur], []) := by
  unfold parseStep
  rw [if_neg (by decide), if_pos (by decide), if_pos ⟨hne, hty⟩]

/-! ## Split/join round-trips -/

theorem splitChar_of_not_mem (sep : Char) (l : Str) (h : sep ∉ l) :
    splitChar sep l = [l] := by
  induction l with
  | nil => rfl
  | cons c cs ih =>
    have hc : ¬ c = sep := fun hc => h (hc ▸ List.mem_cons_self c cs)
    have hcs : sep ∉ cs := fun hm => h (List.mem_cons_of_mem c hm)
    simp only [splitChar]
    rw [if_neg hc, ih hcs]
    rfl

theorem splitChar_append (sep : Char) (l rest : Str) (h : sep ∉ l) :
    splitChar sep (l ++ sep :: rest) = l :: splitChar sep rest := by
  induction l with
  | nil =>
    show splitChar sep (sep :: rest) = [] :: splitChar sep rest
    simp only [splitChar]
    rw [if_pos trivial]
  | cons c cs ih =>
    have hc : ¬ c = sep := fun hc => h (hc ▸ List.mem_cons_self c cs)
    have hcs : sep ∉ cs := fun hm => h (List.mem_cons_of_mem c hm)
    show splitChar sep (c :: (cs ++ sep :: rest)) = (c :: cs) :: splitChar sep rest
    simp only [splitChar]
    rw [if_neg hc, ih hcs]
    rfl

theorem splitSemi_joinSemi (vs : List Str) (hne : vs ≠ [])
    (h : ∀ v ∈ vs, (';' : Char) ∉ v) : splitSemi (joinSemi vs) = vs := by
  induction vs with
  | nil => exact absurd rfl hne
  | cons v ws ih =>
    cases ws with
    | nil => exact splitChar_of_not_mem ';' v (h v (List.mem_cons_self v []))
    | cons w ws' =>
      show splitChar ';' (v ++ ';' :: joinSemi (w :: ws')) = v :: (w :: ws')
      rw [splitChar_append ';' v _ (h v (List.mem_cons_self v _))]
      show v :: splitSemi (joinSemi (w :: ws')) = v :: (w :: ws')
      rw [ih (List.cons_ne_nil w ws') fun x hx => h x (List.mem_cons_of_mem v hx)]

theorem splitNl_joinLines (ls : List Str) (h : ∀ l ∈ ls, ('\n' : Char) ∉ l) :
    splitNl (joinLines ls) = ls ++ [[]] := by
  induction ls with
  | nil => rfl
  | cons l ls' ih =>
    rw [joinLines_cons]
    show splitChar '\n' (l ++ '\n' :: joinLines ls') = (l :: ls') ++ [[]]
    rw [splitChar_append '\n' l _ (h l (List.mem_cons_self l ls'))]
    show l :: splitNl (joinLines ls') = (l :: ls') ++ [[]]
    rw [ih fun x hx => h x (List.mem_cons_of_mem l hx)]
    rfl

/-! ## Accumulating one tag's value lines -/

theorem addTag_fresh (cur : Record) (tag v : Str) (h : dictLookup cur tag = none) :
    addTag cur tag v = cur ++ [(tag, .scalar v)] := by
  unfold addTag
  rw [h]

theorem dictInsert_append_self (cur : Record) (tag : Str) (x y : Value)
    (h : dictLookup cur tag = none) :
    dictInsert (cur ++ [(tag, x)]) tag y = cur ++ [(tag, y)] := by
  induction cur with
  | nil =>
    show dictInsert [(tag, x)] tag y = [(tag, y)]
    unfold dictInsert
    rw [if_pos rfl]
  | cons p ps ih =>
    have hp : ¬ p.1 = tag := by
      intro hc
      simp [dictLookup, hc] at h
    have hps : dictLookup ps tag = none := by
      simp [dictLookup, hp] at h
      exact h
    show dictInsert (p :: (ps ++ [(tag, x)])) tag y = p :: (ps ++ [(tag, y)])
    unfold dictInsert
    rw [if_neg hp, ih hps]

theorem addTag_append (cur : Record) (tag v : Str) (val : Value)
    (h : dictLookup cur tag = none) :
    addTag (cur ++ [(tag, val)]) tag v =
      cur ++ [(tag, match val with
                    | .scalar s => Value.multi [s, v]
                    | .multi vs => Value.multi (vs ++ [v]))] := by
  unfold addTag
  have hl : dictLookup (cur ++ [(tag, val)]) tag = some val := by
    rw [dictLookup_append, h]
    simp [dictLookup]
  rw [hl]
  cases val with
  | scalar s => exact dictInsert_append_self cur tag _ _ h
  | multi vs => exact dictInsert_append_self cur tag _ _ h

theorem foldl_addTag_multi (tag : Str) (cur : Record) (h : dictLookup cur tag = none) :
    ∀ (rest : List Str) (acc : List Str),
      rest.foldl (fun c v => addTag c tag v) (cur ++ [(tag, .multi acc)]) =
        cur ++ [(tag, .multi (acc ++ rest))] := by
  intro rest
  induction rest with
  | nil => intro acc; simp
  | cons w ws ih =>
    intro acc
    simp only [List.foldl_cons]
    rw [addTag_append cur tag w (.multi acc) h]
    dsimp only
    rw [ih (acc ++ [w])]
    simp

theorem foldl_addTag_fresh (tag : Str) (cur : Record) (h : dictLookup cur tag = none)
    (vs : List Str) (hne : vs ≠ []) :
    vs.foldl (fun c v => addTag c tag v) cur = cur ++ [(tag, valueOfVals vs)] := by
  cases vs with
  | nil => exact absurd rfl hne
  | cons v ws =>
    simp only [List.foldl_cons]
    rw [addTag_fresh cur tag v h]
    cases ws with
    | nil => rfl
    | cons w ws' =>
      simp only [List.foldl_cons]
      rw [addTag_append cur tag w (.scalar v) h]
      dsimp only
      rw [foldl_addTag_multi tag cur h ws' [v, w]]
      rfl

/-! ## Well-formedness extraction -/

/-- The shape every stored tag of a round-trippable record has. -/
def tagShape (tag : Str) : Prop :=
  tag.length = 2 ∧ (∀ c ∈ tag, isTagChar c = true) ∧ tag ≠ erTag

instance (tag : Str) : Decidable (tagShape tag) :=
  inferInstanceAs (Decidable (_ ∧ _ ∧ _))

theorem wfRecordB_entry {fields multiF : List Str} {r : Record} {f : Str} {v : Value}
    (hwf : wfRecordB fields multiF r = true) (hl : dictLookup r f = some v) :
    wfTag fields f ∧ wfValueB multiF f v = true := by
  have hm := dictLookup_some_mem hl
  simp only [wfRecordB, Bool.and_eq_true, List.all_eq_true] at hwf
  have h2 := hwf.2 (f, v) hm
  simp only [Bool.and_eq_true, decide_eq_true_eq] at h2
  exact h2

theorem wfRecordB_keys_nodup {fields multiF : List Str} {r : Record}
    (hwf : wfRecordB fields multiF r = true) : (dictKeys r).Nodup := by
  simp only [wfRecordB, Bool.and_eq_true, decide_eq_true_eq] at hwf
  exact hwf.1.1

theorem wfRecordB_ty {fields multiF : List Str} {r : Record}
    (hwf : wfRecordB fields multiF r = true) :
    dictLookup r tyTag = some (.scalar (tyVal r)) ∧ cleanVal (tyVal r) = true := by
  have hsc : isScalarTY r = true := by
    simp only [wfRecordB, Bool.and_eq_true] at hwf
    exact hwf.1.2
  unfold isScalarTY at hsc
  cases hl : dictLookup r tyTag with
  | none => rw [hl] at hsc; cases hsc
  | some v =>
    cases v with
    | multi vs => rw [hl] at hsc; cases hsc
    | scalar s =>
      have hty : tyVal r = s := by simp [tyVal, hl]
      refine ⟨by rw [hty], ?_⟩
      have := (wfRecordB_entry hwf hl).2
      simp only [wfValueB, Bool.and_eq_true] at this
      rw [hty]
      exact this.1

theorem wfTag_tagShape {fields : List Str} {f : Str} (h : wfTag fields f) : tagShape f :=
  ⟨h.1, h.2.1, h.2.2.1⟩

theorem joinSemi_ne_nil (a b : Str) (rest : List Str) :
    joinSemi (a :: b :: rest) ≠ [] := by
  simp only [joinSemi]
  cases a <;> simp

theorem refCell_empty_iff {fields multiF : List Str} {r : Record} (f : Str)
    (hwf : wfRecordB fields multiF r = true) :
    refCell r f = [] ↔ dictLookup r f = none := by
  cases h : dictLookup r f with
  | none => simp [refCell, h]
  | some v =>
    simp only [refCell, h]
    cases v with
    | scalar s =>
      have hwv := (wfRecordB_entry hwf h).2
      simp only [wfValueB, Bool.and_eq_true] at hwv
      simp [cleanVal_ne_nil hwv.1]
    | multi vs =>
      have hwv := (wfRecordB_entry hwf h).2
      simp only [wfValueB, Bool.and_eq_true, decide_eq_true_eq] at hwv
      obtain ⟨⟨hlen, _⟩, _⟩ := hwv
      cases vs with
      | nil => simp at hlen
      | cons a rest =>
        cases rest with
        | nil => simp at hlen
        | cons b rest' => simp [joinSemi_ne_nil a b rest']

/-! ## Field lines of well-formed cells -/

theorem filterMap_all_some {α β : Type} (g : α → Option β) (hfun : α → β) (l : List α)
    (h : ∀ a ∈ l, g a = some (hfun a)) : l.filterMap g = l.map hfun := by
  induction l with
  | nil => rfl
  | cons a as ih =>
    rw [List.filterMap_cons, h a (List.mem_cons_self a as), List.map_cons,
      ih fun x hx => h x (List.mem_cons_of_mem a hx)]

theorem fieldLines_vals (multiF : List Str) (r : Record) (f : Str) (v : Value)
    (hl : dictLookup r f = some v) (hwv : wfValueB multiF f v = true) :
    fieldLines multiF f (refCell r f) = (vals r f).map (lineCore f) := by
  cases v with
  | scalar s =>
    have hcv : cleanVal s = true := by
      simp only [wfValueB, Bool.and_eq_true] at hwv
      exact hwv.1
    unfold fieldLines
    rw [show refCell r f = s from by simp [refCell, hl],
      show vals r f = [s] from by simp [vals, hl]]
    by_cases hm : f ∈ multiF
    · rw [if_pos hm]
      have hns : (';' : Char) ∉ s := by
        simp only [wfValueB, Bool.and_eq_true, Bool.or_eq_true, Bool.not_eq_true',
          decide_eq_false_iff_not] at hwv
        rcases hwv.2 with hc | hc
        · exact absurd hm hc
        · intro hmem
          simp [hmem] at hc
      rw [show splitSemi s = [s] from splitChar_of_not_mem ';' s hns]
      simp [cleanVal_pyStrip hcv, cleanVal_ne_nil hcv]
    · rw [if_neg hm]
      simp
  | multi vs =>
    simp only [wfValueB, Bool.and_eq_true, decide_eq_true_eq, List.all_eq_true] at hwv
    obtain ⟨⟨hlen, hmf⟩, hall⟩ := hwv
    have hvne : vs ≠ [] := by
      intro hc
      rw [hc] at hlen
      simp at hlen
    have hnosemi : ∀ x ∈ vs, (';' : Char) ∉ x := by
      intro x hx hmem
      have h2 := (hall x hx)
      simp only [Bool.and_eq_true, Bool.not_eq_true'] at h2
      have h3 := h2.2
      simp [hmem] at h3
    have hclean : ∀ x ∈ vs, cleanVal x = true := by
      intro x hx
      have h2 := hall x hx
      simp only [Bool.and_eq_true] at h2
      exact h2.1
    unfold fieldLines
    rw [if_pos hmf, show refCell r f = joinSemi vs from by simp [refCell, hl],
      show vals r f = vs from by simp [vals, hl], splitSemi_joinSemi vs hvne hnosemi]
    apply filterMap_all_some
    intro x hx
    rw [cleanVal_pyStrip (hclean x hx), if_pos (cleanVal_ne_nil (hclean x hx))]

/-! ## Reading the projection back through the row dictionary -/

theorem rowGet_proj (fields : List Str) (r : Record) (f : Str) :
    rowGet (rowDict fields (projectRecord fields r)) f =
      if f ∈ fields then refCell r f else [] := by
  induction fields with
  | nil => simp [rowGet, rowDict, projectRecord, dictLookup]
  | cons a as ih =>
    show rowGet ((a, refCell r a) :: rowDict as (projectRecord as r)) f
      = if f ∈ a :: as then refCell r f else []
    by_cases hf : a = f
    · rw [show rowGet ((a, refCell r a) :: rowDict as (projectRecord as r)) f
          = refCell r a from by simp [rowGet, dictLookup, hf],
        if_pos (hf ▸ List.mem_cons_self a as), hf]
    · rw [show rowGet ((a, refCell r a) :: rowDict as (projectRecord as r)) f
          = rowGet (rowDict as (projectRecord as r)) f from by
            simp [rowGet, dictLookup, hf],
        ih]
      by_cases h2 : f ∈ as
      · rw [if_pos h2, if_pos (List.mem_cons_of_mem a h2)]
      · rw [if_neg h2, if_neg (by
          rw [List.mem_cons]
          rintro (hc | hc)
          · exact hf hc.symm
          · exact h2 hc)]

/-! ## Parsing one tag's run of lines, then one whole block -/

theorem parseStep_data_tag (refs : List Record) (cur : Record) (tag v : Str)
    (hsh : tagShape tag) (hv : cleanVal v = true) :
    parseStep (refs, cur) (lineCore tag v) = (refs, addTag cur tag v) := by
  obtain ⟨hlen, hchars, hne⟩ := hsh
  obtain ⟨t1, t2, rfl⟩ : ∃ a b, tag = [a, b] := by
    cases tag with
    | nil => simp at hlen
    | cons a r =>
      cases r with
      | nil => simp at hlen
      | cons b r2 =>
        cases r2 with
        | nil => exact ⟨a, b, rfl⟩
        | cons c r3 => simp at hlen
  exact parseStep_data refs cur t1 t2 v (hchars t1 (by simp)) (hchars t2 (by simp))
    hne hv

theorem parse_value_lines (tag : Str) (hsh : tagShape tag) :
    ∀ (vs : List Str) (refs : List Record) (cur : Record),
      (∀ v ∈ vs, cleanVal v = true) →
      ((vs.map (lineCore tag)).foldl parseStep (refs, cur)) =
        (refs, vs.foldl (fun c v => addTag c tag v) cur) := by
  intro vs
  induction vs with
  | nil => intro refs cur _; rfl
  | cons v ws ih =>
    intro refs cur h
    simp only [List.map_cons, List.foldl_cons]
    rw [parseStep_data_tag refs cur tag v hsh (h v (List.mem_cons_self v ws))]
    exact ih refs (addTag cur tag v) fun x hx => h x (List.mem_cons_of_mem v hx)

theorem parse_groups (fs : List Str) :
    ∀ (valsF : Str → List Str) (refs : List Record) (cur : Record),
      fs.Nodup →
      (∀ f ∈ fs, tagShape f ∧ dictLookup cur f = none ∧ valsF f ≠ [] ∧
        ∀ v ∈ valsF f, cleanVal v = true) →
      (((fs.map fun f => (valsF f).map (lineCore f)).flatten).foldl parseStep
        (refs, cur)) =
        (refs, cur ++ fs.map fun f => (f, valueOfVals (valsF f))) := by
  induction fs with
  | nil => intro valsF refs cur _ _; simp
  | cons f fs' ih =>
    intro valsF refs cur hnd h
    simp only [List.map_cons, List.flatten_cons, List.foldl_append]
    obtain ⟨hsh, hlk, hvne, hvcl⟩ := h f (List.mem_cons_self f fs')
    rw [parse_value_lines f hsh (valsF f) refs cur hvcl,
      foldl_addTag_fresh f cur hlk (valsF f) hvne]
    have hnd' := List.nodup_cons.1 hnd
    rw [ih valsF refs (cur ++ [(f, valueOfVals (valsF f))]) hnd'.2 ?_]
    · simp
    · intro g hg
      obtain ⟨hsh', hlk', hvne', hvcl'⟩ := h g (List.mem_cons_of_mem f hg)
      refine ⟨hsh', ?_, hvne', hvcl'⟩
      rw [dictLookup_append, hlk']
      have hgf : ¬ f = g := fun hc => hnd'.1 (hc ▸ hg)
      simp [dictLookup, hgf]

theorem blockLines_canonical (fields multiF : List Str) (r : Record)
    (hty : tyTag ∈ fields) (hwf : wfRecordB fields multiF r = true) :
    blockLines fields multiF (rowDict fields (projectRecord fields r)) =
      lineCore tyTag (tyVal r) ::
        (((fields.filter fun f => ¬(f = tyTag ∨ f = erTag ∨ refCell r f = [])).map
          fun f => (vals r f).map (lineCore f)).flatten ++ [str "ER  - ", []]) := by
  obtain ⟨hlty, _⟩ := wfRecordB_ty hwf
  unfold blockLines
  congr 1
  · rw [rowGet_proj, if_pos hty,
      show refCell r tyTag = tyVal r from by simp [refCell, hlty]]
  · congr 1
    have hfe : (fields.filter fun f =>
          ¬(f = tyTag ∨ f = erTag ∨ rowGet (rowDict fields (projectRecord fields r)) f = []))
        = fields.filter fun f => ¬(f = tyTag ∨ f = erTag ∨ refCell r f = []) := by
      apply List.filter_congr
      intro f hf
      have hrg := rowGet_proj fields r f
      rw [if_pos hf] at hrg
      rw [hrg]
    rw [hfe]
    apply congrArg
    apply List.map_congr_left
    intro f hf
    obtain ⟨hffields, hcond⟩ := List.mem_filter.1 hf
    have hrg := rowGet_proj fields r f
    rw [if_pos hffields] at hrg
    rw [hrg]
    simp only [decide_eq_true_eq] at hcond
    cases hlk : dictLookup r f with
    | none =>
      exact absurd (by simp [refCell, hlk]) fun hc => hcond (Or.inr (Or.inr hc))
    | some v => exact fieldLines_vals multiF r f v hlk (wfRecordB_entry hwf hlk).2

theorem parse_block (fields multiF : List Str) (r : Record) (refs : List Record)
    (hnd : fields.Nodup) (hty : tyTag ∈ fields)
    (hwf : wfRecordB fields multiF r = true) :
    ((blockLines fields multiF (rowDict fields (projectRecord fields r))).foldl
      parseStep (refs, [])) = (refs ++ [canonRecord fields r], []) := by
  rw [blockLines_canonical fields multiF r hty hwf]
  obtain ⟨hlty, hclty⟩ := wfRecordB_ty hwf
  rw [List.foldl_cons,
    parseStep_data_tag refs [] tyTag (tyVal r) (by decide) hclty,
    show addTag [] tyTag (tyVal r) = [(tyTag, Value.scalar (tyVal r))] from rfl,
    List.foldl_append,
    parse_groups (fields.filter fun f => ¬(f = tyTag ∨ f = erTag ∨ refCell r f = []))
      (vals r) refs [(tyTag, Value.scalar (tyVal r))] (hnd.filter _) ?_]
  · rw [show ([(tyTag, Value.scalar (tyVal r))] : Record) ++
        (fields.filter fun f => ¬(f = tyTag ∨ f = erTag ∨ refCell r f = [])).map
          (fun f => (f, valueOfVals (vals r f))) = canonRecord fields r from rfl,
      List.foldl_cons,
      parseStep_er_pos refs (canonRecord fields r) (List.cons_ne_nil _ _)
        (by simp [hasKey, canonRecord, dictLookup]),
      List.foldl_cons, parseStep_blank _ [] rfl]
    rfl
  · intro g hg
    obtain ⟨hgfields, hcond⟩ := List.mem_filter.1 hg
    simp only [decide_eq_true_eq] at hcond
    push_neg at hcond
    obtain ⟨hgty, hger, hgcell⟩ := hcond
    cases hlk : dictLookup r g with
    | none => exact absurd (by simp [refCell, hlk]) hgcell
    | some v =>
      obtain ⟨hwt, hwv⟩ := wfRecordB_entry hwf hlk
      have hgty' : ¬ tyTag = g := fun hc => hgty hc.symm
      refine ⟨wfTag_tagShape hwt, by simp [dictLookup, hgty'], ?_, ?_⟩
      · cases v with
        | scalar s => simp [vals, hlk]
        | multi vs =>
          simp only [wfValueB, Bool.and_eq_true, decide_eq_true_eq] at hwv
          obtain ⟨⟨hlen, _⟩, _⟩ := hwv
          simp only [vals, hlk]
          intro hc
          rw [hc] at hlen
          simp at hlen
      · intro x hx
        cases v with
        | scalar s =>
          simp only [vals, hlk, List.mem_singleton] at hx
          subst hx
          simp only [wfValueB, Bool.and_eq_true] at hwv
          exact hwv.1
        | multi vs =>
          simp only [vals, hlk] at hx
          simp only [wfValueB, Bool.and_eq_true, List.all_eq_true] at hwv
          have h2 := hwv.2 x hx
          simp only [Bool.and_eq_true] at h2
          exact h2.1

/-! ## Line-break-freeness of the emitted block lines

Both `'\n'` and `'\r'` must be absent from every emitted line: `'\n'` is the
written line terminator, and a lone `'\r'` would also end the line when the
file is read back under universal-newline translation. -/

theorem tagShape_no_char {f : Str} {c : Char} (h : tagShape f)
    (hc : isTagChar c = false) : c ∉ f := by
  intro hm
  rw [h.2.1 c hm] at hc
  cases hc

theorem lineCore_no_char {c : Char} {tag v : Str} (htag : c ∉ tag)
    (hsep : c ∉ str "  - ") (hv : c ∉ v) : c ∉ lineCore tag v := by
  unfold lineCore
  intro hm
  rcases List.mem_append.1 hm with hm | hm
  · rcases List.mem_append.1 hm with hm | hm
    · exact htag hm
    · exact hsep hm
  · exact hv hm

theorem vals_all_clean {multiF : List Str} {r : Record} {f : Str} {v : Value}
    (hlk : dictLookup r f = some v) (hwv : wfValueB multiF f v = true) :
    ∀ x ∈ vals r f, cleanVal x = true := by
  intro x hx
  cases v with
  | scalar s =>
    simp only [vals, hlk, List.mem_singleton] at hx
    subst hx
    simp only [wfValueB, Bool.and_eq_true] at hwv
    exact hwv.1
  | multi vs =>
    simp only [vals, hlk] at hx
    simp only [wfValueB, Bool.and_eq_true, List.all_eq_true] at hwv
    have h2 := hwv.2 x hx
    simp only [Bool.and_eq_true] at h2
    exact h2.1

theorem canonical_block_no_char (fields multiF : List Str) (r : Record)
    (hwf : wfRecordB fields multiF r = true) (c : Char)
    (htagc : isTagChar c = false) (hsep : c ∉ str "  - ")
    (her : c ∉ str "ER  - ")
    (hclean : ∀ v : Str, cleanVal v = true → c ∉ v) :
    ∀ l ∈ lineCore tyTag (tyVal r) ::
        (((fields.filter fun f => ¬(f = tyTag ∨ f = erTag ∨ refCell r f = [])).map
          fun f => (vals r f).map (lineCore f)).flatten ++ [str "ER  - ", []]),
      c ∉ l := by
  intro l hl
  rcases List.mem_cons.1 hl with rfl | hl
  · exact lineCore_no_char (tagShape_no_char (by decide) htagc) hsep
      (hclean _ (wfRecordB_ty hwf).2)
  rcases List.mem_append.1 hl with hl | hl
  · rw [List.mem_flatten] at hl
    obtain ⟨b, hb, hlb⟩ := hl
    rw [List.mem_map] at hb
    obtain ⟨f, hf, rfl⟩ := hb
    rw [List.mem_map] at hlb
    obtain ⟨x, hx, rfl⟩ := hlb
    obtain ⟨hff, hcond⟩ := List.mem_filter.1 hf
    simp only [decide_eq_true_eq] at hcond
    push_neg at hcond
    cases hlk : dictLookup r f with
    | none => exact absurd (by simp [refCell, hlk]) hcond.2.2
    | some v =>
      obtain ⟨hwt, hwv⟩ := wfRecordB_entry hwf hlk
      exact lineCore_no_char (tagShape_no_char (wfTag_tagShape hwt) htagc) hsep
        (hclean _ (vals_all_clean hlk hwv x hx))
  · rcases List.mem_cons.1 hl with rfl | hl
    · exact her
    · rcases List.mem_singleton.1 hl with rfl
      simp

theorem joinLines_no_char (c : Char) (hc : c ≠ '\n') (ls : List Str)
    (h : ∀ l ∈ ls, c ∉ l) : c ∉ joinLines ls := by
  intro hm
  unfold joinLines at hm
  rw [List.mem_flatten] at hm
  obtain ⟨b, hb, hmb⟩ := hm
  rw [List.mem_map] at hb
  obtain ⟨l, hl, rfl⟩ := hb
  rcases List.mem_append.1 hmb with hm2 | hm2
  · exact h l hl hm2
  · rcases List.mem_singleton.1 hm2 with rfl
    exact hc rfl

/-! ## Parsing all blocks back -/

theorem parse_blocks (fields multiF : List Str) (hnd : fields.Nodup)
    (hty : tyTag ∈ fields) :
    ∀ R : List Record, (∀ r ∈ R, wfRecordB fields multiF r = true) →
      ∀ refs : List Record,
        (((R.map fun r => blockLines fields multiF
            (rowDict fields (projectRecord fields r))).flatten).foldl parseStep
          (refs, [])) = (refs ++ R.map (canonRecord fields), []) := by
  intro R
  induction R with
  | nil => intro _ refs; simp
  | cons r R' ih =>
    intro hwf refs
    simp only [List.map_cons, List.flatten_cons, List.foldl_append]
    rw [parse_block fields multiF r refs hnd hty (hwf r (List.mem_cons_self r R')),
      ih (fun x hx => hwf x (List.mem_cons_of_mem r hx)) (refs ++ [canonRecord fields r])]
    simp

/-! ## The parsed-back record looks up like the original -/

theorem dictLookup_map_pairs (fs : List Str) (g : Str → Value) (tag : Str) :
    dictLookup (fs.map fun f => (f, g f)) tag =
      if tag ∈ fs then some (g tag) else none := by
  induction fs with
  | nil => simp [dictLookup]
  | cons a as ih =>
    show (if a = tag then some (g a) else dictLookup (as.map fun f => (f, g f)) tag) = _
    by_cases ha : a = tag
    · rw [if_pos ha, if_pos (ha ▸ List.mem_cons_self a as), ha]
    · rw [if_neg ha, ih]
      by_cases h2 : tag ∈ as
      · rw [if_pos h2, if_pos (List.mem_cons_of_mem a h2)]
      · rw [if_neg h2, if_neg (by
          rw [List.mem_cons]
          rintro (hc | hc)
          · exact ha hc.symm
          · exact h2 hc)]

theorem canonRecord_lookup (fields multiF : List Str) (r : Record)
    (hwf : wfRecordB fields multiF r = true) (tag : Str) :
    dictLookup (canonRecord fields r) tag = dictLookup r tag := by
  unfold canonRecord
  by_cases hty : tyTag = tag
  · subst hty
    rw [show dictLookup ((tyTag, Value.scalar (tyVal r)) ::
        ((fields.filter fun f => ¬(f = tyTag ∨ f = erTag ∨ refCell r f = [])).map
          fun f => (f, valueOfVals (vals r f)))) tyTag
        = some (Value.scalar (tyVal r)) from by simp [dictLookup]]
    exact ((wfRecordB_ty hwf).1).symm
  · rw [show dictLookup ((tyTag, Value.scalar (tyVal r)) ::
        ((fields.filter fun f => ¬(f = tyTag ∨ f = erTag ∨ refCell r f = [])).map
          fun f => (f, valueOfVals (vals r f)))) tag
        = dictLookup ((fields.filter fun f =>
            ¬(f = tyTag ∨ f = erTag ∨ refCell r f = [])).map
          fun f => (f, valueOfVals (vals r f))) tag from by simp [dictLookup, hty],
      dictLookup_map_pairs]
    by_cases hin : tag ∈ fields.filter fun f => ¬(f = tyTag ∨ f = erTag ∨ refCell r f = [])
    · rw [if_pos hin]
      obtain ⟨htf, hcond⟩ := List.mem_filter.1 hin
      simp only [decide_eq_true_eq] at hcond
      push_neg at hcond
      cases hlk : dictLookup r tag with
      | none => exact absurd (by simp [refCell, hlk]) hcond.2.2
      | some v =>
        cases v with
        | scalar s => simp [vals, hlk, valueOfVals]
        | multi vs =>
          obtain ⟨hwt, hwv⟩ := wfRecordB_entry hwf hlk
          simp only [wfValueB, Bool.and_eq_true, decide_eq_true_eq] at hwv
          obtain ⟨⟨hlen, _⟩, _⟩ := hwv
          rw [show vals r tag = vs from by simp [vals, hlk]]
          cases vs with
          | nil => simp at hlen
          | cons a rest =>
            cases rest with
            | nil => simp at hlen
            | cons b rest' => rfl
    · rw [if_neg hin]
      cases hlk : dictLookup r tag with
      | none => rfl
      | some v =>
        obtain ⟨hwt, hwv⟩ := wfRecordB_entry hwf hlk
        exfalso
        apply hin
        rw [List.mem_filter]
        refine ⟨hwt.2.2.2, ?_⟩
        simp only [decide_eq_true_eq]
        push_neg
        refine ⟨fun hc => hty hc.symm, hwt.2.2.1, ?_⟩
        intro hc
        rw [refCell_empty_iff tag hwf] at hc
        rw [hlk] at hc
        cases hc

/-! ## The round trip (claim C1) -/

theorem roundtrip_parse (stdRows : List (List Str)) (std : Standards) (R : List Record)
    (hload : load_ris_standards stdRows = .ok std)
    (hwf : ∀ r ∈ R, wfRecordB (sortKeys (dictKeys std)) (multiValueFields std) r = true) :
    parse_ris_file (serializeRows (sortKeys (dictKeys std)) (sortKeys (dictKeys std))
        (multiValueFields std) (R.map (projectRecord (sortKeys (dictKeys std))))) =
      R.map (canonRecord (sortKeys (dictKeys std))) := by
  have hnd : (sortKeys (dictKeys std)).Nodup := sortKeys_nodup _ (load_ok_facts hload).2
  have htym : tyTag ∈ sortKeys (dictKeys std) :=
    (mem_sortKeys _ _).2 ((hasKey_iff_mem _ _).1 (load_ok_facts hload).1)
  rw [serializeRows_eq]
  have hfilter : ((R.map (projectRecord (sortKeys (dictKeys std)))).filter
      fun row => ¬ rowGet (rowDict (sortKeys (dictKeys std)) row) tyTag = [])
      = R.map (projectRecord (sortKeys (dictKeys std))) := by
    rw [List.filter_eq_self]
    intro row hrow
    rw [List.mem_map] at hrow
    obtain ⟨r, hr, rfl⟩ := hrow
    simp only [decide_eq_true_eq]
    rw [rowGet_proj, if_pos htym]
    obtain ⟨hlty, hclty⟩ := wfRecordB_ty (hwf r hr)
    rw [show refCell r tyTag = tyVal r from by simp [refCell, hlty]]
    exact cleanVal_ne_nil hclty
  rw [hfilter]
  have hcomp : ((R.map (projectRecord (sortKeys (dictKeys std)))).map
      fun row => blockLines (sortKeys (dictKeys std)) (multiValueFields std)
        (rowDict (sortKeys (dictKeys std)) row))
      = R.map fun r => blockLines (sortKeys (dictKeys std)) (multiValueFields std)
          (rowDict (sortKeys (dictKeys std)) (projectRecord (sortKeys (dictKeys std)) r)) := by
    rw [List.map_map]
    rfl
  rw [hcomp]
  have hblock : ∀ c : Char, isTagChar c = false → c ∉ str "  - " →
      c ∉ str "ER  - " → (∀ v : Str, cleanVal v = true → c ∉ v) →
      ∀ l ∈ ((R.map fun r => blockLines (sortKeys (dictKeys std))
        (multiValueFields std)
        (rowDict (sortKeys (dictKeys std))
          (projectRecord (sortKeys (dictKeys std)) r))).flatten), c ∉ l := by
    intro c h1 h2 h3 h4 l hl
    rw [List.mem_flatten] at hl
    obtain ⟨b, hb, hlb⟩ := hl
    rw [List.mem_map] at hb
    obtain ⟨r, hr, rfl⟩ := hb
    rw [blockLines_canonical _ _ r htym (hwf r hr)] at hlb
    exact canonical_block_no_char _ _ r (hwf r hr) c h1 h2 h3 h4 l hlb
  have hnl := hblock '\n' (by decide) (by decide) (by decide)
    fun v hv => cleanVal_no_newline hv
  have hcr := hblock '\r' (by decide) (by decide) (by decide)
    fun v hv => cleanVal_no_cr hv
  unfold parse_ris_file parse_lines
  rw [univNl_eq_self _ (joinLines_no_char '\r' (by decide) _ hcr),
    splitNl_joinLines _ hnl, List.foldl_append,
    parse_blocks (sortKeys (dictKeys std)) (multiValueFields std) hnd htym R hwf [],
    List.foldl_cons, parseStep_blank _ [] rfl, List.foldl_nil]
  unfold flushTail
  rw [if_neg (by simp)]
  simp

end Ris2Csv
